import Mathlib

/-!
Verification of the redaction engine in `src/streamlit_app.py`.

The embedding models:
* `normalize_list` (term normalizer): split on runs of `,`/`\n`, strip,
  drop empties, stable sort by descending length;
* `build_phrase_regex` + `re.sub` (phrase matcher / text redactor): Python
  `re` semantics for the compiled pattern `(?i)(?<!\w)(t1|t2|...)(?!\w)` —
  a left-to-right scan; at each position the alternatives are tried in list
  order and the first one whose literal matches case-insensitively and whose
  trailing lookahead succeeds wins; the leading lookbehind is checked against
  the previous character; the scan resumes after each match (non-overlapping);
* the page-search fallback of `redact_pdf_bytes` (lines 80–93);
* the request flow of the module (lines 143–177).

Characters are Lean `Char`; `\w` and case folding are modelled on ASCII,
which covers all inputs appearing in the claims.
-/

/-- ASCII word character: the model of `\w` in the compiled pattern. -/
def isWordChar (c : Char) : Bool := c.isAlphanum || c = '_'

/-- Case-insensitive character equality: the model of the `(?i)` flag on
ASCII.  Two characters are equal ignoring case iff they are equal or are the
upper/lower-case variants of one letter (ASCII codes 32 apart). -/
def eqCI (a b : Char) : Bool :=
  a == b ||
    (a.isAlpha && b.isAlpha &&
      (a.toNat + 32 == b.toNat || b.toNat + 32 == a.toNat))

/-- Literal match of a phrase at the head of `s` (case-insensitive).
Returns the consumed text characters and the remaining suffix. -/
def matchesHere : List Char → List Char → Option (List Char × List Char)
  | [], s => some ([], s)
  | _ :: _, [] => none
  | p :: ps, c :: cs =>
    if eqCI p c then (matchesHere ps cs).map (fun ur => (c :: ur.1, ur.2)) else none

/-- The trailing lookahead `(?!\w)`: the next character, if any, is not a
word character. -/
def boundaryOk : List Char → Bool
  | [] => true
  | c :: _ => !isWordChar c

/-- Does this single alternative produce a match at the head of `s`
(literal match plus trailing lookahead)? -/
def phraseOk (p s : List Char) : Bool :=
  match matchesHere p s with
  | some (_, r) => boundaryOk r
  | none => false

/-- The alternation `(t1|t2|...)` followed by `(?!\w)`: alternatives are
tried in list order; the first one that matches and passes the lookahead
wins.  This is `build_phrase_regex` (lines 36–41) minus the lookbehind,
which the scan checks per position.  `re.escape` makes each phrase a
literal, which is how phrases enter this model. -/
def firstMatch : List (List Char) → List Char → Option (List Char × List Char)
  | [], _ => none
  | p :: ps, s =>
    match matchesHere p s with
    | some (u, r) => if boundaryOk r then some (u, r) else firstMatch ps s
    | none => firstMatch ps s

/-- The leading lookbehind `(?<!\w)` at the current scan position: the
previous character (tracked by the scan) must not be a word character. -/
def prevWord : Option Char → Bool
  | none => false
  | some c => isWordChar c

/-- The `pat.sub(replacement, text)` scan of `redact_text` (lines 54–56):
left to right; a position whose predecessor is a word character cannot start
a match; otherwise the first viable alternative is replaced and the scan
resumes after the matched text; a zero-width match (possible only for an
empty phrase) is replaced and the scan advances one character, as in Python.
The `Nat` argument is fuel; `text.length + 1` steps always suffice. -/
def scanAux (phrases : List (List Char)) (repl : List Char) :
    Nat → Option Char → List Char → List Char
  | 0, _, s => s
  | fuel + 1, prev, s =>
    if prevWord prev then
      match s with
      | [] => []
      | c :: cs => c :: scanAux phrases repl fuel (some c) cs
    else
      match firstMatch phrases s with
      | none =>
        match s with
        | [] => []
        | c :: cs => c :: scanAux phrases repl fuel (some c) cs
      | some (u, r) =>
        match u with
        | [] =>
          repl ++ (match s with
            | [] => []
            | c :: cs => c :: scanAux phrases repl fuel (some c) cs)
        | d :: ds =>
          repl ++ scanAux phrases repl fuel
            (some (List.getLast (d :: ds) (List.cons_ne_nil d ds))) r

/-- `redact_text(text, phrases, replacement)` (lines 54–56): compile the
phrase list and substitute every match by the replacement token. -/
def redact_text (text : String) (phrases : List String) (replacement : String) : String :=
  String.mk (scanAux (phrases.map String.data) replacement.data
    (text.data.length + 1) none text.data)

/-- Separator class `[,\n]` of the split in `normalize_list` (line 31). -/
def isSepChar (c : Char) : Bool := c = ',' || c = '\n'

/-- One step of splitting on runs of separators, right to left.  The `Bool`
records whether the character to the right was a separator, so a run of
separators produces a single split point, as `re.split(r"[,\n]+", raw)`
does. -/
def splitStep (c : Char) : List (List Char) × Bool → List (List Char) × Bool
  | (segs, prevSep) =>
    if isSepChar c then
      if prevSep then (segs, true) else ([] :: segs, true)
    else
      match segs with
      | [] => ([[c]], false)
      | seg :: rest => ((c :: seg) :: rest, false)

/-- `re.split(r"[,\n]+", raw)`: the segments between maximal separator runs,
with an empty leading/trailing segment when the string starts/ends with a
separator, exactly as Python produces them. -/
def splitRuns (s : List Char) : List (List Char) :=
  (s.foldr splitStep ([[]], false)).1

/-- Characters stripped by Python `str.strip()` (ASCII whitespace). -/
def isPySpace (c : Char) : Bool :=
  c = ' ' || c = '\t' || c = '\n' || c = '\r' || c = '\x0b' || c = '\x0c'

/-- Python `str.strip()` on a character list. -/
def pyStrip (s : List Char) : List Char :=
  ((s.dropWhile isPySpace).reverse.dropWhile isPySpace).reverse

/-- Python `str.strip()` on a string. -/
def pyStripStr (s : String) : String := String.mk (pyStrip s.data)

/-- Stable sort by descending character length: the model of
`cleaned.sort(key=len, reverse=True)` (line 33) and of
`sorted(detected, key=len, reverse=True)` (line 160); Python's sort is
stable, and so is `List.insertionSort` with this relation. -/
def sortLenDesc (l : List String) : List String :=
  List.insertionSort (fun a b => b.length ≤ a.length) l

/-- The list `cleaned` of `normalize_list` (line 32): stripped nonempty
segments, in split order. -/
def cleaned (raw : String) : List String :=
  (((splitRuns raw.data).map pyStrip).map (fun l => String.mk l)).filter
    (fun s => s ≠ "")

/-- `normalize_list(raw)` (lines 30–34). -/
def normalize_list (raw : String) : List String := sortLenDesc (cleaned raw)

/-- Python `sep.join(pages)` for the page joining in `extract_pdf_text`
(line 27). -/
def pyJoin (sep : String) : List String → String
  | [] => ""
  | [x] => x
  | x :: y :: t => x ++ sep ++ pyJoin sep (y :: t)

/-- `extract_pdf_text` (lines 22–28) applied to the per-page texts produced
by the extraction collaborator: join with a blank line and strip.  The page
texts themselves come from the external `pdfplumber` library and are the
input of this model. -/
def extract_pdf_text (pages : List String) : String :=
  pyStripStr (pyJoin "\n\n" pages)

/-- Python `str.lower()` (ASCII), the model of `phrase.lower()` at line 91. -/
def lowerStr (s : String) : String := String.mk (s.data.map Char.toLower)

/-- Python `str.upper()` (ASCII), the model of `phrase.upper()` at line 92. -/
def upperStr (s : String) : String := String.mk (s.data.map Char.toUpper)

/-- Modelled from the spec at the collaborator boundary (§4.5 step 1, §6):
a page of the paged document is the list of its located region texts, and
the native search primitive `page.search_for(needle)` returns the indices of
the regions whose text equals the needle.  The primitive itself lives in the
external PyMuPDF library; only this interface is modelled. -/
def searchFor (page : List String) (needle : String) : List Nat :=
  (List.range page.length).filter (fun i => decide (page.getD i "" = needle))

/-- The per-phrase, per-page region location step of `redact_pdf_bytes`
(lines 82–93): use the native case-insensitive search when available;
otherwise search the phrase's original casing and, only when that finds
nothing, probe the all-lowercase and all-uppercase variants. -/
def locateRects (hasIgnorecase : Bool) (page : List String) (phrase : String) :
    List Nat :=
  if hasIgnorecase then
    (List.range page.length).filter
      (fun i => decide (lowerStr (page.getD i "") = lowerStr phrase))
  else
    let rects := searchFor page phrase
    if rects = [] then
      searchFor page (lowerStr phrase) ++ searchFor page (upperStr phrase)
    else rects

/-- Error conditions of the request flow (spec §7): `noExtractableText` is
the warning-and-stop at lines 146–150; `documentParseError` is the failure
of the paged-document parser inside `redact_pdf_bytes` (line 67). -/
inductive FlowError
  | noExtractableText
  | documentParseError
deriving DecidableEq

/-- The two output artifacts offered by a successful request: the redacted
document bytes (line 172) and the redacted text (line 198). -/
structure Artifacts where
  pdfArtifact : String
  textArtifact : String
deriving DecidableEq

/-- The term list handed to both redactors (lines 152–160): the normalized
manual list, replaced — not merged — by the detected entities sorted by
descending length when auto-detect mode is on. -/
def compute_targets (userRaw : String) (autoMode : Bool)
    (detected : List String) : List String :=
  if autoMode then sortLenDesc detected else normalize_list userRaw

/-- The replacement token actually used (lines 163 and 169):
`replacement.strip() or "[REDACTED]"`. -/
def effective_replacement (replacementRaw : String) : String :=
  if pyStripStr replacementRaw = "" then "[REDACTED]" else pyStripStr replacementRaw

/-- The module-level request flow (lines 143–177): extract, stop with
`noExtractableText` on empty text, resolve targets, redact the text, then
produce the redacted document and offer both artifacts.  The document
redaction step delegates to the external PDF library and may fail; it is
passed in as a function of the targets and the replacement token.  The
script has no exception handling, so a failing document step aborts the
request before either download is offered. -/
def runFlow (pages : List String) (userRaw : String) (autoMode : Bool)
    (detected : List String) (replacementRaw : String)
    (pdfRedact : List String → String → Except FlowError String) :
    Except FlowError Artifacts :=
  let full_text := extract_pdf_text pages
  if full_text = "" then Except.error FlowError.noExtractableText
  else
    let targets := compute_targets userRaw autoMode detected
    let repl := effective_replacement replacementRaw
    let redactedText := redact_text full_text targets repl
    match pdfRedact targets repl with
    | Except.error e => Except.error e
    | Except.ok pdfBytes => Except.ok ⟨pdfBytes, redactedText⟩

/-- The compiled matcher finds no match anywhere in `s` when scanned with
`prev` as the character preceding `s` (including at the end-of-string
position, where only an empty phrase could match).  This is the meaning of
"the replacement token itself does not match any input term" when applied
to the token, and the postcondition the scan's output must satisfy for
idempotence. -/
def noMatchScan (phrases : List (List Char)) : Option Char → List Char → Bool
  | prev, [] => prevWord prev || (firstMatch phrases []).isNone
  | prev, c :: cs =>
    (prevWord prev || (firstMatch phrases (c :: cs)).isNone) &&
      noMatchScan phrases (some c) cs

/-- The last character of `l`, or `p` when `l` is empty: the character
preceding the text that follows `l` in a longer scan. -/
def lastOpt : List Char → Option Char → Option Char
  | [], p => p
  | a :: as, _ => lastOpt as (some a)

/-- A case-insensitive occurrence of `term` at character position `i` of
`text` with no alphanumeric/underscore character immediately adjacent on
either side (the claims' notion of a word-bounded occurrence). -/
def occursWordBoundedAt (text term : String) (i : Nat) : Bool :=
  (match i with
   | 0 => true
   | j + 1 =>
     match text.data.get? j with
     | some c => !isWordChar c
     | none => false) &&
  phraseOk term.data (text.data.drop i)

/-! ### Helper lemmas -/

/-- With no phrases the compiled pattern matches nothing and the scan copies
its input (the `(?!x)x` branch of `build_phrase_regex`, line 38). -/
theorem scanAux_nil_phrases (repl : List Char) :
    ∀ fuel prev s, scanAux [] repl fuel prev s = s := by
  intro fuel
  induction fuel with
  | zero => intro prev s; rfl
  | succ n ih =>
    intro prev s
    cases s with
    | nil => simp [scanAux, firstMatch]
    | cons c cs => simp [scanAux, firstMatch, ih]

/-- Every character of the blank-line join of all-empty pages is
whitespace. -/
theorem pyJoin_allSpace (pages : List String) (h : ∀ p ∈ pages, p = "") :
    ∀ c ∈ (pyJoin "\n\n" pages).data, isPySpace c = true := by
  induction pages with
  | nil => intro c hc; simp [pyJoin] at hc
  | cons x t ih =>
    cases t with
    | nil =>
      intro c hc
      have hx := h x (by simp)
      subst hx
      simp [pyJoin] at hc
    | cons y t2 =>
      intro c hc
      have hx := h x (by simp)
      rw [show pyJoin "\n\n" (x :: y :: t2) = x ++ "\n\n" ++ pyJoin "\n\n" (y :: t2)
        from rfl, String.data_append, String.data_append] at hc
      subst hx
      rcases List.mem_append.mp hc with hc1 | hc2
      · rcases List.mem_append.mp hc1 with hc0 | hcs
        · simp at hc0
        · rcases hcs with h1 | h2 <;> simp_all [isPySpace]
      · exact ih (fun p hp => h p (by simp [hp])) c hc2

/-- A document whose every page extracts to empty text has empty full
text. -/
theorem extract_allEmpty (pages : List String) (h : ∀ p ∈ pages, p = "") :
    extract_pdf_text pages = "" := by
  have hall := pyJoin_allSpace pages h
  unfold extract_pdf_text pyStripStr pyStrip
  rw [List.dropWhile_eq_nil_iff.mpr hall]
  rfl

/-! ### C1 — term normalizer -/

/-- C1 counterexample: `normalize_list` does not remove duplicates; the
spec's example input yields `["Alice Smith", "Bob", "Bob"]`, not
`["Alice Smith", "Bob"]`. -/
theorem c1_counterexample :
    normalize_list "Bob, Alice Smith\nBob" ≠ ["Alice Smith", "Bob"] := by decide

/-- C1 (amended): the term normalizer splits the raw input on runs of
commas/newlines, trims entries and discards empty ones (this is `cleaned`),
and returns exactly those entries (as a permutation, i.e. no entry —
duplicate or not — is removed) sorted by descending character length with
ties preserving split order.  Tie stability is the second conjunct: for
every length `n`, the output's entries of length `n` are exactly the
cleaned entries of length `n` in their original split order (together with
sortedness this determines the output uniquely).  In particular
normalize("Bob, Alice Smith\nBob") = ["Alice Smith", "Bob", "Bob"], and
equal-length distinct entries keep their split order, as in
normalize("cd, ab") = ["cd", "ab"]. -/
theorem c1_theorem :
    (∀ raw : String,
        List.Sorted (fun a b : String => b.length ≤ a.length) (normalize_list raw) ∧
        (normalize_list raw).Perm (cleaned raw)) ∧
    (∀ (raw : String) (n : Nat),
        (normalize_list raw).filter (fun s => decide (s.length = n)) =
          (cleaned raw).filter (fun s => decide (s.length = n))) ∧
    normalize_list "Bob, Alice Smith\nBob" = ["Alice Smith", "Bob", "Bob"] ∧
    normalize_list "cd, ab" = ["cd", "ab"] := by
  refine ⟨fun raw => ⟨?_, ?_⟩, ?_, by decide, by decide⟩
  · haveI : IsTotal String (fun a b => b.length ≤ a.length) :=
      ⟨fun a b => Nat.le_total b.length a.length⟩
    haveI : IsTrans String (fun a b => b.length ≤ a.length) :=
      ⟨fun _ _ _ hab hbc => le_trans hbc hab⟩
    exact List.sorted_insertionSort _ _
  · exact List.perm_insertionSort _ _
  · intro raw n
    have hsubl : List.Sublist ((cleaned raw).filter (fun s => decide (s.length = n)))
        (normalize_list raw) := by
      apply List.sublist_insertionSort
      · apply List.pairwise_of_forall_mem_list
        intro a ha b hb
        have ha3 : a.length = n := of_decide_eq_true (List.mem_filter.mp ha).2
        have hb3 : b.length = n := of_decide_eq_true (List.mem_filter.mp hb).2
        show b.length ≤ a.length
        omega
      · exact List.filter_sublist _
    have hperm : ((normalize_list raw).filter (fun s => decide (s.length = n))).Perm
        ((cleaned raw).filter (fun s => decide (s.length = n))) :=
      (List.perm_insertionSort _ _).filter _
    have h3 := hsubl.filter (fun s => decide (s.length = n))
    have h4 : ((cleaned raw).filter (fun s => decide (s.length = n))).filter
        (fun s => decide (s.length = n)) =
        (cleaned raw).filter (fun s => decide (s.length = n)) :=
      List.filter_eq_self.mpr (fun a ha => (List.mem_filter.mp ha).2)
    rw [h4] at h3
    exact (List.Sublist.eq_of_length h3 hperm.length_eq.symm).symm

/-! ### C4 — empty term set is the identity transform -/

/-- C4: the empty term list compiles to a policy matching nothing, so text
redaction with it is the identity transform: for every text and replacement
token, redact_text(T, [], replacement) = T. -/
theorem c4_theorem (T replacement : String) : redact_text T [] replacement = T := by
  cases T with
  | mk data => simp [redact_text, scanAux_nil_phrases]

/-! ### C6 — lower/upper probing in the document redactor -/

/-- C6 counterexample: with no native case-insensitive search, a page
containing both `"Alan"` and `"alan"` is searched for the term `"Alan"`;
the original-casing search already finds a region, so the lowercase variant
is never probed and the region `"alan"` (which equals the all-lowercase
variant of the term) is not located. -/
theorem c6_counterexample :
    ["Alan", "alan"].getD 1 "" = lowerStr "Alan" ∧
    locateRects false ["Alan", "alan"] "Alan" = [0] ∧
    ¬ (1 ∈ locateRects false ["Alan", "alan"] "Alan") := by decide

/-- C6 (amended): when the search primitive has no native case-insensitive
mode, the all-lowercase and all-uppercase variants of a term are probed only
when the original-casing search finds no region on the page; in that case
the located regions are exactly those of the two variant searches, so a
region whose text equals the lowercase variant is located.  When the
original casing finds any region, only those regions are returned. -/
theorem c6_theorem :
    (∀ page phrase, searchFor page phrase = [] →
        locateRects false page phrase =
          searchFor page (lowerStr phrase) ++ searchFor page (upperStr phrase)) ∧
    (∀ page phrase, searchFor page phrase ≠ [] →
        locateRects false page phrase = searchFor page phrase) ∧
    (∀ page phrase i, searchFor page phrase = [] → i < page.length →
        page.getD i "" = lowerStr phrase →
        i ∈ locateRects false page phrase) := by
  refine ⟨fun page phrase h => ?_, fun page phrase h => ?_,
    fun page phrase i h hi hg => ?_⟩
  · simp [locateRects, h]
  · simp [locateRects, h]
  · have hmem : i ∈ searchFor page (lowerStr phrase) := by
      simp only [searchFor, List.mem_filter, List.mem_range]
      exact ⟨hi, by simpa [List.getD] using hg⟩
    simp only [locateRects, h, if_pos, if_false, Bool.false_eq_true]
    exact List.mem_append_left _ hmem

/-- C6 witness: the amended theorem applied at a concrete page with no
original-casing hit. -/
theorem c6_witness :
    locateRects false ["alan", "x"] "Alan" =
      searchFor ["alan", "x"] (lowerStr "Alan") ++
        searchFor ["alan", "x"] (upperStr "Alan") :=
  c6_theorem.1 ["alan", "x"] "Alan" (by decide)

/-! ### C7 — empty extraction stops the request -/

/-- C7: if every page extracts to empty text, the full text is empty, the
NoExtractableText condition is surfaced, and no further processing happens:
the flow returns the error and produces neither artifact. -/
theorem c7_theorem (pages : List String) (userRaw : String) (autoMode : Bool)
    (detected : List String) (replacementRaw : String)
    (pdfRedact : List String → String → Except FlowError String)
    (h : ∀ p ∈ pages, p = "") :
    runFlow pages userRaw autoMode detected replacementRaw pdfRedact =
      Except.error FlowError.noExtractableText := by
  simp [runFlow, extract_allEmpty pages h]

/-- C7 witness: the theorem applied to a two-page all-empty document. -/
theorem c7_witness :
    runFlow ["", ""] "Bob" false [] "[R]" (fun _ _ => Except.ok "x") =
      Except.error FlowError.noExtractableText :=
  c7_theorem ["", ""] "Bob" false [] "[R]" (fun _ _ => Except.ok "x") (by decide)

/-! ### C8 — artifact failure isolation -/

/-- C8 counterexample: for a one-page document whose text redaction
succeeds (producing "hello [R]"), a DocumentParseError in the document
redaction step makes the whole request fail: the flow returns the error and
the redacted-text artifact is not returned. -/
theorem c8_counterexample :
    redact_text "hello Bob" ["Bob"] "[R]" = "hello [R]" ∧
    runFlow ["hello Bob"] "Bob" false [] "[R]"
        (fun _ _ => Except.error FlowError.documentParseError) =
      Except.error FlowError.documentParseError :=
  ⟨by decide, rfl⟩

/-- C8 (amended): the two output artifacts do not fail in isolation — the
script has no exception handling, so when the document-redaction step fails
the request aborts with that error and the already-computed redacted-text
artifact is not returned; both artifacts are returned exactly when the
document step succeeds. -/
theorem c8_theorem :
    (∀ pages userRaw autoMode detected replacementRaw
        (pdfRedact : List String → String → Except FlowError String)
        (e : FlowError),
        extract_pdf_text pages ≠ "" →
        pdfRedact (compute_targets userRaw autoMode detected)
            (effective_replacement replacementRaw) = Except.error e →
        runFlow pages userRaw autoMode detected replacementRaw pdfRedact =
          Except.error e) ∧
    (∀ pages userRaw autoMode detected replacementRaw
        (pdfRedact : List String → String → Except FlowError String)
        (b : String),
        extract_pdf_text pages ≠ "" →
        pdfRedact (compute_targets userRaw autoMode detected)
            (effective_replacement replacementRaw) = Except.ok b →
        runFlow pages userRaw autoMode detected replacementRaw pdfRedact =
          Except.ok ⟨b, redact_text (extract_pdf_text pages)
            (compute_targets userRaw autoMode detected)
            (effective_replacement replacementRaw)⟩) := by
  constructor <;>
    · intro pages userRaw autoMode detected replacementRaw pdfRedact v hne hpdf
      simp [runFlow, hne, hpdf]

/-- C8 witness: the amended theorem's error branch at a concrete input. -/
theorem c8_witness :
    runFlow ["a"] "" false [] ""
        (fun _ _ => Except.error FlowError.documentParseError) =
      Except.error FlowError.documentParseError :=
  c8_theorem.1 ["a"] "" false [] ""
    (fun _ _ => Except.error FlowError.documentParseError)
    FlowError.documentParseError (by decide) rfl

/-! ### C2 — word-bounded case-insensitive replacement -/

/-- C2 counterexample: with the single term "a a" and replacement "[R]",
the text "a a a" contains a word-bounded case-insensitive occurrence of the
term at position 2, yet the output is "[R] a": the occurrence overlaps the
one replaced at position 0 and is not replaced, so not every word-bounded
occurrence is replaced. -/
theorem c2_counterexample :
    occursWordBoundedAt "a a a" "a a" 2 = true ∧
    redact_text "a a a" ["a a"] "[R]" = "[R] a" ∧
    redact_text "a a a" ["a a"] "[R]" ≠ "[R] [R]" := by decide

/-- C2 (amended): redact_text performs a single left-to-right
non-overlapping scan: at each position it replaces the first listed term
that matches case-insensitively and passes the word-boundary checks, then
resumes after the matched text (so of two overlapping word-bounded
occurrences only the leftmost is replaced).  A match is never produced with
a word character immediately after it (first conjunct: every winning match
passes the trailing lookahead), and never starts immediately after a word
character (second conjunct: after a word character the scan always copies),
so occurrences embedded inside a larger alphanumeric token are never
replaced; the claim's examples hold. -/
theorem c2_theorem :
    (∀ (phrases : List (List Char)) (s u r : List Char),
        firstMatch phrases s = some (u, r) → boundaryOk r = true) ∧
    (∀ (g : Nat) (phrases : List (List Char)) (repl : List Char) (c : Char)
        (s : List Char), isWordChar c = true →
        scanAux phrases repl (g + 1) (some c) s =
          (match s with
           | [] => []
           | a :: as => a :: scanAux phrases repl g (some a) as)) ∧
    redact_text "Ann said hi to Annual Co." ["Ann"] "[REDACTED]" =
      "[REDACTED] said hi to Annual Co." ∧
    redact_text "ACME CORP signed the deal." ["acme corp"] "[REDACTED]" =
      "[REDACTED] signed the deal." := by
  refine ⟨?_, ?_, by decide, by decide⟩
  · intro phrases
    induction phrases with
    | nil => intro s u r h; simp [firstMatch] at h
    | cons p ps ih =>
      intro s u r h
      rw [firstMatch] at h
      cases hm : matchesHere p s with
      | none => rw [hm] at h; exact ih s u r h
      | some ur =>
        obtain ⟨u1, r1⟩ := ur
        rw [hm] at h
        by_cases hb : boundaryOk r1
        · simp only [hb, if_true] at h
          obtain ⟨hu, hr⟩ := Prod.mk.injEq .. ▸ Option.some.injEq .. ▸ h
          exact hr ▸ hb
        · simp only [hb] at h
          exact ih s u r h
  · intro g phrases repl c s hc
    rw [scanAux.eq_def]
    simp [prevWord, hc]

/-- C2 witness: the amended theorem's general conjuncts evaluated at
concrete inputs. -/
theorem c2_witness :
    boundaryOk [' '] = true ∧ scanAux [] [] 1 (some 'a') [] = [] :=
  ⟨c2_theorem.1 [['A', 'n', 'n']] ['A', 'n', 'n', ' '] ['A', 'n', 'n'] [' ']
      (by decide),
   c2_theorem.2.1 0 [] [] 'a' [] (by decide)⟩

/-! ### C3 — earliest-listed term wins -/

/-- C3: at a given position the alternatives are tried in list order: if the
head term matches (case-insensitively, with the trailing boundary check
passing) it wins regardless of the remaining terms, and if it is not viable
the rest of the list is tried; with the longest-first ordering this prefers
the longest applicable phrase, as in the example. -/
theorem c3_theorem :
    (∀ (p : List Char) (ps : List (List Char)) (s u r : List Char),
        matchesHere p s = some (u, r) → boundaryOk r = true →
        firstMatch (p :: ps) s = some (u, r)) ∧
    (∀ (p : List Char) (ps : List (List Char)) (s : List Char),
        phraseOk p s = false → firstMatch (p :: ps) s = firstMatch ps s) ∧
    redact_text "Alan Ngouenet met Alan." ["Alan Ngouenet", "Alan"] "[X]" =
      "[X] met [X]." := by
  refine ⟨fun p ps s u r hm hb => ?_, fun p ps s hnot => ?_, by decide⟩
  · rw [firstMatch, hm]
    simp [hb]
  · rw [firstMatch]
    rw [phraseOk] at hnot
    cases hm : matchesHere p s with
    | none => rfl
    | some ur =>
      obtain ⟨u1, r1⟩ := ur
      rw [hm] at hnot
      have hb : boundaryOk r1 = false := hnot
      show (if boundaryOk r1 = true then some (u1, r1) else firstMatch ps s) =
        firstMatch ps s
      rw [hb]
      simp

/-- C3 witness: the head alternative wins at a concrete input. -/
theorem c3_witness :
    firstMatch [['a'], ['z', 'z']] ['a'] = some (['a'], []) :=
  c3_theorem.1 ['a'] [['z', 'z']] ['a'] ['a'] [] (by decide) (by decide)

/-! ### C10 — auto-detect mode discards the manual list -/

/-- C10: in auto-detect mode the manually entered list is discarded, not
merged: the targets are exactly the detected entities sorted by descending
length, and the whole request flow is independent of the manual input. -/
theorem c10_theorem :
    (∀ (raw : String) (detected : List String),
        compute_targets raw true detected = sortLenDesc detected) ∧
    (∀ (raw₁ raw₂ : String) (detected : List String),
        compute_targets raw₁ true detected = compute_targets raw₂ true detected) ∧
    (∀ pages (raw₁ raw₂ : String) detected replacementRaw
        (pdfRedact : List String → String → Except FlowError String),
        runFlow pages raw₁ true detected replacementRaw pdfRedact =
          runFlow pages raw₂ true detected replacementRaw pdfRedact) :=
  ⟨fun _ _ => rfl, fun _ _ _ => rfl, fun _ _ _ _ _ _ => rfl⟩

/-! ### C5 — matcher-level lemmas -/

/-- Characters equal up to case have the same word-character status. -/
theorem eqCI_word {a b : Char} (h : eqCI a b = true) :
    isWordChar a = isWordChar b := by
  unfold eqCI at h
  rcases Bool.or_eq_true_iff.mp h with h1 | h2
  · rw [eq_of_beq h1]
  · have h3 := Bool.and_eq_true_iff.mp h2
    have ha := (Bool.and_eq_true_iff.mp h3.1).1
    have hb := (Bool.and_eq_true_iff.mp h3.1).2
    simp [isWordChar, Char.isAlphanum, ha, hb]

/-- A word character is never case-insensitively equal to a non-word
character. -/
theorem eqCI_eq_false_of_word {a b : Char} (ha : isWordChar a = true)
    (hb : isWordChar b = false) : eqCI a b = false := by
  cases hc : eqCI a b
  · rfl
  · have h := eqCI_word hc
    rw [ha, hb] at h
    cases h

/-- A literal match consumes a prefix of the text of the phrase's length,
and the consumed characters inherit the phrase's word-character status. -/
theorem matchesHere_sound :
    ∀ (p s u r : List Char), matchesHere p s = some (u, r) →
      s = u ++ r ∧ u.length = p.length ∧
      ((∀ a ∈ p, isWordChar a = true) → ∀ a ∈ u, isWordChar a = true) := by
  intro p
  induction p with
  | nil =>
    intro s u r h
    rw [matchesHere] at h
    injection h with h2
    injection h2 with hu hr
    subst hu; subst hr
    exact ⟨rfl, rfl, fun _ a ha => absurd ha (List.not_mem_nil a)⟩
  | cons p0 ps ih =>
    intro s u r h
    cases s with
    | nil => rw [matchesHere] at h; cases h
    | cons c cs =>
      rw [matchesHere] at h
      cases he : eqCI p0 c
      · rw [he] at h; simp at h
      · rw [he] at h
        simp only [if_true] at h
        obtain ⟨⟨u1, r1⟩, hm, hmap⟩ := Option.map_eq_some'.mp h
        injection hmap with hu hr
        subst hu; subst hr
        obtain ⟨hs, hlen, hw⟩ := ih cs u1 r1 hm
        refine ⟨by rw [hs]; rfl, by simp [hlen], ?_⟩
        intro hall a ha
        rcases List.mem_cons.mp ha with rfl | ha2
        · rw [← eqCI_word he]
          exact hall p0 (List.mem_cons_self p0 ps)
        · exact hw (fun b hb => hall b (List.mem_cons_of_mem _ hb)) a ha2

/-- A phrase whose head alternative matches and passes the lookahead wins
the alternation. -/
theorem firstMatch_cons_head (p : List Char) (ps : List (List Char))
    (s u r : List Char) (hm : matchesHere p s = some (u, r))
    (hb : boundaryOk r = true) : firstMatch (p :: ps) s = some (u, r) := by
  rw [firstMatch, hm]
  simp [hb]

/-- A head alternative that does not produce a match is skipped. -/
theorem firstMatch_cons_skip (p : List Char) (ps : List (List Char))
    (s : List Char) (h : phraseOk p s = false) :
    firstMatch (p :: ps) s = firstMatch ps s := by
  rw [firstMatch]
  rw [phraseOk] at h
  cases hm : matchesHere p s with
  | none => rfl
  | some ur =>
    obtain ⟨u1, r1⟩ := ur
    rw [hm] at h
    have hb : boundaryOk r1 = false := h
    show (if boundaryOk r1 = true then some (u1, r1) else firstMatch ps s) =
      firstMatch ps s
    rw [hb]
    simp

/-- The winning match splits the text, passes the lookahead, and comes from
one of the phrases. -/
theorem firstMatch_sound :
    ∀ (phrases : List (List Char)) (s u r : List Char),
      firstMatch phrases s = some (u, r) →
      s = u ++ r ∧ boundaryOk r = true ∧
      ∃ p ∈ phrases, matchesHere p s = some (u, r) := by
  intro phrases
  induction phrases with
  | nil => intro s u r h; rw [firstMatch] at h; cases h
  | cons p ps ih =>
    intro s u r h
    cases hm : matchesHere p s with
    | none =>
      rw [firstMatch_cons_skip p ps s (by rw [phraseOk, hm])] at h
      obtain ⟨h1, h2, q, hq1, hq2⟩ := ih s u r h
      exact ⟨h1, h2, q, List.mem_cons_of_mem _ hq1, hq2⟩
    | some ur =>
      obtain ⟨u1, r1⟩ := ur
      cases hb : boundaryOk r1
      · rw [firstMatch_cons_skip p ps s (by rw [phraseOk, hm]; exact hb)] at h
        obtain ⟨h1, h2, q, hq1, hq2⟩ := ih s u r h
        exact ⟨h1, h2, q, List.mem_cons_of_mem _ hq1, hq2⟩
      · rw [firstMatch_cons_head p ps s u1 r1 hm hb] at h
        injection h with h2
        injection h2 with hu hr
        subst hu; subst hr
        obtain ⟨hs, -, -⟩ := matchesHere_sound p s u1 r1 hm
        exact ⟨hs, hb, p, List.mem_cons_self p ps, hm⟩

/-- If no phrase is viable at the head of `s`, the alternation fails. -/
theorem firstMatch_none_of_forall :
    ∀ (phrases : List (List Char)) (s : List Char),
      (∀ p ∈ phrases, phraseOk p s = false) → firstMatch phrases s = none := by
  intro phrases
  induction phrases with
  | nil => intro s _; rfl
  | cons p ps ih =>
    intro s h
    rw [firstMatch_cons_skip p ps s (h p (List.mem_cons_self p ps))]
    exact ih s (fun q hq => h q (List.mem_cons_of_mem _ hq))

/-- If the alternation fails, no phrase is viable at the head of `s`. -/
theorem firstMatch_none_forall :
    ∀ (phrases : List (List Char)) (s : List Char),
      firstMatch phrases s = none → ∀ p ∈ phrases, phraseOk p s = false := by
  intro phrases
  induction phrases with
  | nil => intro s _ p hp; cases hp
  | cons p ps ih =>
    intro s h q hq
    cases hpO : phraseOk p s
    · rw [firstMatch_cons_skip p ps s hpO] at h
      rcases List.mem_cons.mp hq with rfl | hq2
      · exact hpO
      · exact ih s h q hq2
    · exfalso
      rw [phraseOk] at hpO
      cases hm : matchesHere p s with
      | none => rw [hm] at hpO; cases hpO
      | some ur =>
        obtain ⟨u1, r1⟩ := ur
        rw [hm] at hpO
        have hb : boundaryOk r1 = true := hpO
        rw [firstMatch_cons_head p ps s u1 r1 hm hb] at h
        cases h

/-- An empty text matches no nonempty phrase. -/
theorem firstMatch_nil_none {phrases : List (List Char)}
    (h1 : ∀ p ∈ phrases, p ≠ []) : firstMatch phrases [] = none := by
  refine firstMatch_none_of_forall phrases [] (fun p hp => ?_)
  cases p with
  | nil => exact absurd rfl (h1 [] hp)
  | cons p0 ps => rfl

/-- Viability of one head alternative steps through one case-insensitively
equal character. -/
theorem phraseOk_cons {p0 a : Char} (ps as : List Char)
    (he : eqCI p0 a = true) : phraseOk (p0 :: ps) (a :: as) = phraseOk ps as := by
  unfold phraseOk
  rw [matchesHere, he]
  simp only [if_true]
  cases hm : matchesHere ps as with
  | none => rfl
  | some ur => obtain ⟨u1, r1⟩ := ur; rfl

/-- A head character mismatch makes the alternative fail. -/
theorem phraseOk_head_false {p0 a : Char} (ps as : List Char)
    (he : eqCI p0 a = false) : phraseOk (p0 :: ps) (a :: as) = false := by
  unfold phraseOk
  rw [matchesHere, he]
  rfl

/-- No nonempty all-word-character phrase matches at a non-word
character. -/
theorem firstMatch_headNonWord {phrases : List (List Char)}
    (h1 : ∀ p ∈ phrases, p ≠ [] ∧ ∀ a ∈ p, isWordChar a = true)
    {c : Char} (hc : isWordChar c = false) (t : List Char) :
    firstMatch phrases (c :: t) = none := by
  refine firstMatch_none_of_forall phrases (c :: t) (fun p hp => ?_)
  cases p with
  | nil => exact absurd rfl (h1 [] hp).1
  | cons p0 ps =>
    exact phraseOk_head_false ps t
      (eqCI_eq_false_of_word ((h1 _ hp).2 p0 (List.mem_cons_self p0 ps)) hc)

/-- Whether a nonempty all-word phrase is viable on `w ++ d :: x` does not
depend on what follows the first non-word character `d`: an all-word match
cannot reach past `d`. -/
theorem phraseOk_stable {d : Char} (hd : isWordChar d = false) :
    ∀ (w p x y : List Char), p ≠ [] → (∀ a ∈ p, isWordChar a = true) →
      phraseOk p (w ++ d :: x) = phraseOk p (w ++ d :: y) := by
  intro w
  induction w with
  | nil =>
    intro p x y hne hw
    cases p with
    | nil => exact absurd rfl hne
    | cons p0 ps =>
      have h0 : eqCI p0 d = false :=
        eqCI_eq_false_of_word (hw p0 (List.mem_cons_self p0 ps)) hd
      rw [List.nil_append, List.nil_append, phraseOk_head_false ps x h0,
        phraseOk_head_false ps y h0]
  | cons a w2 ih =>
    intro p x y hne hw
    cases p with
    | nil => exact absurd rfl hne
    | cons p0 ps =>
      rw [List.cons_append, List.cons_append]
      cases he : eqCI p0 a
      · rw [phraseOk_head_false _ _ he, phraseOk_head_false _ _ he]
      · rw [phraseOk_cons _ _ he, phraseOk_cons _ _ he]
        cases ps with
        | nil =>
          show boundaryOk (w2 ++ d :: x) = boundaryOk (w2 ++ d :: y)
          cases w2 with
          | nil => rfl
          | cons b w3 => rfl
        | cons p1 ps2 =>
          exact ih (p1 :: ps2) x y (List.cons_ne_nil p1 ps2)
            (fun b hb => hw b (List.mem_cons_of_mem _ hb))

/-- A nonempty all-word phrase that fails on `s` still fails on `s ++ t`
when `t` begins with a non-word character (or is empty): the appended text
can neither complete the literal match nor fix the lookahead. -/
theorem phraseOk_append_none {t : List Char} (ht : boundaryOk t = true) :
    ∀ (p s : List Char), p ≠ [] → (∀ a ∈ p, isWordChar a = true) →
      phraseOk p s = false → phraseOk p (s ++ t) = false := by
  intro p
  induction p with
  | nil => intro s hne; exact absurd rfl hne
  | cons p0 ps ih =>
    intro s hne hw h
    cases s with
    | nil =>
      rw [List.nil_append]
      cases t with
      | nil => rfl
      | cons c cs =>
        have hc : isWordChar c = false := by
          have : (!isWordChar c) = true := ht
          simpa using this
        exact phraseOk_head_false ps cs
          (eqCI_eq_false_of_word (hw p0 (List.mem_cons_self p0 ps)) hc)
    | cons a as =>
      rw [List.cons_append]
      cases he : eqCI p0 a
      · exact phraseOk_head_false _ _ he
      · rw [phraseOk_cons _ _ he]
        rw [phraseOk_cons _ _ he] at h
        cases ps with
        | nil =>
          have h2 : boundaryOk as = false := h
          cases as with
          | nil => cases h2
          | cons e es => exact h2
        | cons p1 ps2 =>
          exact ih as (List.cons_ne_nil p1 ps2)
            (fun b hb => hw b (List.mem_cons_of_mem _ hb)) h

/-- Whether the alternation of nonempty all-word phrases fails is stable
under changing the text past the first non-word character. -/
theorem firstMatch_isNone_stable {phrases : List (List Char)}
    (h1 : ∀ p ∈ phrases, p ≠ [] ∧ ∀ a ∈ p, isWordChar a = true)
    {d : Char} (hd : isWordChar d = false) (w x y : List Char) :
    (firstMatch phrases (w ++ d :: x)).isNone =
      (firstMatch phrases (w ++ d :: y)).isNone := by
  have hdir : ∀ x2 y2 : List Char, firstMatch phrases (w ++ d :: x2) = none →
      firstMatch phrases (w ++ d :: y2) = none := by
    intro x2 y2 h
    refine firstMatch_none_of_forall phrases _ (fun p hp => ?_)
    rw [← phraseOk_stable hd w p x2 y2 (h1 p hp).1 (h1 p hp).2]
    exact firstMatch_none_forall phrases _ h p hp
  cases h2 : firstMatch phrases (w ++ d :: x) with
  | none => rw [hdir x y h2]
  | some v =>
    cases h3 : firstMatch phrases (w ++ d :: y) with
    | none => rw [hdir y x h3] at h2; cases h2
    | some v2 => rfl

/-- Failure of the alternation of nonempty all-word phrases persists under
appending text that begins with a non-word character. -/
theorem firstMatch_append_none {phrases : List (List Char)}
    (h1 : ∀ p ∈ phrases, p ≠ [] ∧ ∀ a ∈ p, isWordChar a = true)
    {t : List Char} (ht : boundaryOk t = true) (s : List Char)
    (h : firstMatch phrases s = none) : firstMatch phrases (s ++ t) = none := by
  refine firstMatch_none_of_forall phrases _ (fun p hp => ?_)
  exact phraseOk_append_none ht p s (h1 p hp).1 (h1 p hp).2
    (firstMatch_none_forall phrases s h p hp)

/-! ### C5 — scan-level lemmas -/

/-- A position preceded by a word character is blocked by the lookbehind:
the scan copies one character. -/
theorem scanAux_blocked_step (phrases : List (List Char)) (repl : List Char)
    (n : Nat) {prev : Option Char} (hp : prevWord prev = true)
    (c : Char) (cs : List Char) :
    scanAux phrases repl (n + 1) prev (c :: cs) =
      c :: scanAux phrases repl n (some c) cs := by
  rw [scanAux.eq_def]
  simp [hp]

/-- With no viable alternative at an unblocked position, the scan copies one
character. -/
theorem scanAux_nomatch_step (phrases : List (List Char)) (repl : List Char)
    (n : Nat) {prev : Option Char} (hp : prevWord prev = false)
    {c : Char} {cs : List Char}
    (hm : firstMatch phrases (c :: cs) = none) :
    scanAux phrases repl (n + 1) prev (c :: cs) =
      c :: scanAux phrases repl n (some c) cs := by
  rw [scanAux.eq_def]
  simp [hp, hm]

/-- A nonempty winning match at an unblocked position is replaced by the
token and the scan resumes after the matched text. -/
theorem scanAux_match_step (phrases : List (List Char)) (repl : List Char)
    (n : Nat) {prev : Option Char} (hp : prevWord prev = false)
    {s r : List Char} {d : Char} {ds : List Char}
    (hm : firstMatch phrases s = some (d :: ds, r)) :
    scanAux phrases repl (n + 1) prev s =
      repl ++ scanAux phrases repl n
        (some (List.getLast (d :: ds) (List.cons_ne_nil d ds))) r := by
  rw [scanAux.eq_def]
  cases s with
  | nil => simp [hp, hm]
  | cons c cs => simp [hp, hm]

/-- The scan leaves the empty text unchanged when every phrase is
nonempty. -/
theorem scanAux_nil_out (phrases : List (List Char)) (repl : List Char)
    (h1 : ∀ p ∈ phrases, p ≠ []) :
    ∀ (fuel : Nat) (prev : Option Char), scanAux phrases repl fuel prev [] = [] := by
  intro fuel prev
  cases fuel with
  | zero => rfl
  | succ n =>
    rw [scanAux.eq_def]
    simp [firstMatch_nil_none h1]

/-- `noMatchScan` inspects the preceding character only through
`prevWord`. -/
theorem noMatchScan_congr (phrases : List (List Char)) (s : List Char)
    (p q : Option Char) (h : prevWord p = prevWord q) :
    noMatchScan phrases p s = noMatchScan phrases q s := by
  cases s with
  | nil => rw [noMatchScan, noMatchScan, h]
  | cons c cs => rw [noMatchScan, noMatchScan, h]

/-- Splicing: if the matcher finds nothing in `A` (scanned from `pr`),
nothing in `B` (scanned from the last character of `A`), every phrase is a
nonempty all-word phrase, and `B` starts with a non-word character or is
empty, then the matcher finds nothing in `A ++ B`. -/
theorem noMatchScan_append {phrases : List (List Char)}
    (h1 : ∀ p ∈ phrases, p ≠ [] ∧ ∀ a ∈ p, isWordChar a = true)
    {B : List Char} (hB : boundaryOk B = true) :
    ∀ (A : List Char) (pr : Option Char),
      noMatchScan phrases pr A = true →
      noMatchScan phrases (lastOpt A pr) B = true →
      noMatchScan phrases pr (A ++ B) = true := by
  intro A
  induction A with
  | nil => intro pr _ hB2; exact hB2
  | cons a A2 ih =>
    intro pr hA hB2
    rw [List.cons_append]
    rw [noMatchScan, Bool.and_eq_true_iff] at hA
    obtain ⟨hA1, hA2⟩ := hA
    rw [noMatchScan, Bool.and_eq_true_iff]
    refine ⟨?_, ih (some a) hA2 hB2⟩
    rcases Bool.or_eq_true_iff.mp hA1 with hw | hn
    · exact Bool.or_eq_true_iff.mpr (Or.inl hw)
    · refine Bool.or_eq_true_iff.mpr (Or.inr ?_)
      have hnone : firstMatch phrases (a :: A2) = none :=
        Option.isNone_iff_eq_none.mp hn
      have h3 : firstMatch phrases ((a :: A2) ++ B) = none :=
        firstMatch_append_none h1 hB (a :: A2) hnone
      rw [List.cons_append] at h3
      rw [h3]
      rfl

/-- Scanning from a word character either copies the text unchanged or
reproduces it up to and including its first non-word character. -/
theorem scanAux_diverge (phrases : List (List Char)) (repl : List Char) :
    ∀ (fuel : Nat) (s : List Char) (c : Char), isWordChar c = true →
      scanAux phrases repl fuel (some c) s = s ∨
      ∃ w d x y, isWordChar d = false ∧ s = w ++ d :: x ∧
        scanAux phrases repl fuel (some c) s = w ++ d :: y := by
  intro fuel
  induction fuel with
  | zero => intro s c _; exact Or.inl rfl
  | succ n ih =>
    intro s c hc
    have hp : prevWord (some c) = true := hc
    cases s with
    | nil =>
      left
      rw [scanAux.eq_def]
      simp [hp]
    | cons a as =>
      rw [scanAux_blocked_step phrases repl n hp a as]
      cases ha : isWordChar a
      · right
        exact ⟨[], a, as, scanAux phrases repl n (some a) as, ha, rfl, rfl⟩
      · rcases ih as a ha with he | ⟨w, d, x, y, hd, hsx, ho⟩
        · left; rw [he]
        · right
          refine ⟨a :: w, d, x, y, hd, by rw [hsx]; rfl, ?_⟩
          rw [ho]
          rfl

/-- When the matcher finds nothing, the scan is the identity. -/
theorem scanAux_id_of_noMatch (phrases : List (List Char)) (repl : List Char) :
    ∀ (fuel : Nat) (prev : Option Char) (s : List Char),
      noMatchScan phrases prev s = true → scanAux phrases repl fuel prev s = s := by
  intro fuel
  induction fuel with
  | zero => intro prev s _; rfl
  | succ n ih =>
    intro prev s h
    cases s with
    | nil =>
      rw [scanAux.eq_def]
      cases hp : prevWord prev
      · rw [noMatchScan, hp, Bool.false_or] at h
        have : firstMatch phrases [] = none := Option.isNone_iff_eq_none.mp h
        simp [hp, this]
      · simp [hp]
    | cons c cs =>
      rw [noMatchScan, Bool.and_eq_true_iff] at h
      obtain ⟨h1, h2⟩ := h
      cases hp : prevWord prev
      · rw [hp, Bool.false_or] at h1
        have hm : firstMatch phrases (c :: cs) = none :=
          Option.isNone_iff_eq_none.mp h1
        rw [scanAux_nomatch_step phrases repl n hp hm, ih (some c) cs h2]
      · rw [scanAux_blocked_step phrases repl n hp c cs, ih (some c) cs h2]

/-- Core invariant for idempotence: when every phrase is a nonempty
all-word-character phrase and the matcher finds nothing in the replacement
token, the matcher finds nothing in the scan's output.  `prev1` is the
pass-one context, `prev2` the pass-two context at the same point; they agree
except immediately after a replacement, where pass one's context is the last
matched (word) character and the remaining text begins lookahead-approved
(non-word first character or empty). -/
theorem scanAux_output_noMatch {phrases : List (List Char)} {repl : List Char}
    (h1 : ∀ p ∈ phrases, p ≠ [] ∧ ∀ a ∈ p, isWordChar a = true)
    (h2 : noMatchScan phrases none repl = true) :
    ∀ (fuel : Nat) (s : List Char) (prev1 prev2 : Option Char),
      s.length + 1 ≤ fuel →
      (prev1 = prev2 ∨ (prevWord prev1 = true ∧ boundaryOk s = true)) →
      noMatchScan phrases prev2 (scanAux phrases repl fuel prev1 s) = true := by
  have h1ne : ∀ p ∈ phrases, p ≠ [] := fun p hp => (h1 p hp).1
  intro fuel
  induction fuel with
  | zero => intro s prev1 prev2 hf _; exact absurd hf (by omega)
  | succ n ih =>
    intro s prev1 prev2 hf hinv
    cases s with
    | nil =>
      rw [scanAux_nil_out phrases repl h1ne (n + 1) prev1, noMatchScan,
        firstMatch_nil_none h1ne]
      simp
    | cons c cs =>
      have hfn : cs.length + 1 ≤ n := by
        simp only [List.length_cons] at hf
        omega
      cases hp : prevWord prev1
      · have hpq : prev1 = prev2 := by
          rcases hinv with h | ⟨hw, -⟩
          · exact h
          · rw [hp] at hw; cases hw
        cases hm : firstMatch phrases (c :: cs) with
        | none =>
          rw [scanAux_nomatch_step phrases repl n hp hm, noMatchScan,
            Bool.and_eq_true_iff]
          refine ⟨?_, ih cs (some c) (some c) hfn (Or.inl rfl)⟩
          rw [← hpq, hp, Bool.false_or]
          cases hc : isWordChar c
          · have hst := firstMatch_isNone_stable h1 hc [] cs
              (scanAux phrases repl n (some c) cs)
            rw [List.nil_append, List.nil_append] at hst
            rw [← hst, hm]
            rfl
          · rcases scanAux_diverge phrases repl n cs c hc with
              he | ⟨w, d, x, y, hd, hsx, ho⟩
            · rw [he, hm]; rfl
            · rw [ho]
              have hst := firstMatch_isNone_stable h1 hd (c :: w) x y
              rw [List.cons_append, List.cons_append] at hst
              rw [← hst, ← hsx, hm]
              rfl
        | some ur =>
          obtain ⟨u, r⟩ := ur
          obtain ⟨hsplit, hbnd, p, hpmem, hmh⟩ :=
            firstMatch_sound phrases (c :: cs) u r hm
          obtain ⟨-, hlen, hword⟩ := matchesHere_sound p (c :: cs) u r hmh
          have hAllW : ∀ a ∈ u, isWordChar a = true := hword (h1 p hpmem).2
          have hune : u ≠ [] := by
            intro h0
            apply (h1 p hpmem).1
            rw [h0] at hlen
            exact List.length_eq_zero.mp hlen.symm
          obtain ⟨d, ds, rfl⟩ := List.exists_cons_of_ne_nil hune
          rw [scanAux_match_step phrases repl n hp hm]
          have hfr : r.length + 1 ≤ n := by
            have hlen2 : (c :: cs).length = (d :: ds).length + r.length := by
              rw [hsplit, List.length_append]
            simp only [List.length_cons] at hlen2
            omega
          have hlastw :
              isWordChar (List.getLast (d :: ds) (List.cons_ne_nil d ds)) = true :=
            hAllW _ (List.getLast_mem _)
          have hInner : noMatchScan phrases (lastOpt repl prev2)
              (scanAux phrases repl n
                (some (List.getLast (d :: ds) (List.cons_ne_nil d ds))) r) = true :=
            ih r (some (List.getLast (d :: ds) (List.cons_ne_nil d ds)))
              (lastOpt repl prev2) hfr (Or.inr ⟨hlastw, hbnd⟩)
          have hBok : boundaryOk (scanAux phrases repl n
              (some (List.getLast (d :: ds) (List.cons_ne_nil d ds))) r) = true := by
            cases r with
            | nil => rw [scanAux_nil_out phrases repl h1ne]; rfl
            | cons e es =>
              obtain ⟨m, rfl⟩ : ∃ m, n = m + 1 := ⟨n - 1, by omega⟩
              rw [scanAux_blocked_step phrases repl m
                (show prevWord (some (List.getLast (d :: ds)
                  (List.cons_ne_nil d ds))) = true from hlastw) e es]
              exact hbnd
          have hA : noMatchScan phrases prev2 repl = true := by
            rw [noMatchScan_congr phrases repl prev2 none (by rw [← hpq, hp]; rfl)]
            exact h2
          exact noMatchScan_append h1 hBok repl prev2 hA hInner
      · rw [scanAux_blocked_step phrases repl n hp c cs, noMatchScan,
          Bool.and_eq_true_iff]
        refine ⟨?_, ih cs (some c) (some c) hfn (Or.inl rfl)⟩
        rcases hinv with hq | ⟨-, hbs⟩
        · rw [← hq, hp]; rfl
        · have hc : isWordChar c = false := by
            have h3 : (!isWordChar c) = true := hbs
            simpa using h3
          rw [firstMatch_headNonWord h1 hc (scanAux phrases repl n (some c) cs)]
          simp

/-! ### C5 — idempotence -/

/-- C5 counterexample: terms ["a a"], replacement "a", text "a a a".  The
replacement token is disjoint from the terms (the matcher finds no match in
"a" — first conjunct), yet one redaction yields "a a" and a second
redaction turns that into "a": the replacement combined with the adjacent
surviving text into a new word-bounded match, so redaction is not
idempotent under the claim's hypothesis. -/
theorem c5_counterexample :
    noMatchScan [String.data "a a"] none (String.data "a") = true ∧
    redact_text "a a a" ["a a"] "a" = "a a" ∧
    redact_text (redact_text "a a a" ["a a"] "a") ["a a"] "a" = "a" ∧
    ("a" : String) ≠ "a a" := by decide

/-- C5 (amended): text redaction is idempotent under a fixed term list and
a replacement token disjoint from all terms, provided additionally that
every term is nonempty and consists only of alphanumeric/underscore
characters: then redact(redact(T)) = redact(T) for every text T.  (For
terms containing separator characters, such as multi-word phrases, the
replacement can combine with adjacent surviving text into a new match even
though the replacement itself matches no term, as the counterexample
shows.) -/
theorem c5_theorem (T : String) (phrases : List String) (replacement : String)
    (h1 : ∀ p ∈ phrases, p ≠ "" ∧ ∀ a ∈ p.data, isWordChar a = true)
    (h2 : noMatchScan (phrases.map String.data) none replacement.data = true) :
    redact_text (redact_text T phrases replacement) phrases replacement =
      redact_text T phrases replacement := by
  have h1d : ∀ q ∈ phrases.map String.data,
      q ≠ [] ∧ ∀ a ∈ q, isWordChar a = true := by
    intro q hq
    obtain ⟨p, hp, rfl⟩ := List.mem_map.mp hq
    exact ⟨fun hnil => (h1 p hp).1 (String.ext hnil), (h1 p hp).2⟩
  have hout : noMatchScan (phrases.map String.data) none
      (scanAux (phrases.map String.data) replacement.data
        (T.data.length + 1) none T.data) = true :=
    scanAux_output_noMatch h1d h2 (T.data.length + 1) T.data none none
      (le_refl _) (Or.inl rfl)
  unfold redact_text
  exact congrArg String.mk
    (scanAux_id_of_noMatch (phrases.map String.data) replacement.data _ none _ hout)

/-- C5 witness: the amended theorem applied to a concrete all-word term and
a disjoint replacement token. -/
theorem c5_witness :
    redact_text (redact_text "Bob met Ann" ["Bob"] "[X]") ["Bob"] "[X]" =
      redact_text "Bob met Ann" ["Bob"] "[X]" :=
  c5_theorem "Bob met Ann" ["Bob"] "[X]" (by decide) (by decide)

